import Mathlib

/-!
# Affine cipher (`algorithm/affine/affine.go`)

A shallow embedding of the Go package `affine` and the properties of its
modular-arithmetic core.

Conventions of the embedding:

* a Go `byte` is a `Nat` below `256`; every `byte` operation that can wrap is
  written with an explicit `% 256`;
* a Go `int` is an `Int`; Go's `/` and `%` on `int` truncate towards zero, so
  they are `Int.tdiv` and `Int.tmod`;
* a method with a pointer receiver that mutates its receiver returns the new
  receiver next to its Go result;
* out parameters (`x *int`, `y *int`) become components of the result.
-/

namespace Affine

/-! ## Machine integers -/

/-- Conversion `byte(i)` of a Go `int` to a `byte`: the low eight bits. -/
def toByte (i : Int) : Nat := (i % 256).toNat

/-! ## The collaborator package `algorithm` -/

/-- Modelled from the spec: `algorithm.Alphabet` is declared outside
`affine.go`. The spec describes it as a collaborator over a 26-symbol
canonical alphabet providing `positionOf(char) -> int` and
`charAt(int) -> char`; here `Chars` is the symbol table indexed by position
and `CanonicalPositionOf` the position function on bytes. -/
structure Alphabet where
  Chars : List Char
  CanonicalPositionOf : Nat → Int

/-- Modelled from the spec: `algorithm.GetAlphabet` is declared outside
`affine.go`. It yields the canonical alphabet: the 26 upper-case letters
`'A'..'Z'` at positions `0..25`, the position function being the inverse of
the table on those letters (and `0` elsewhere). -/
def GetAlphabet : Alphabet where
  Chars := (List.range 26).map (fun i => Char.ofNat (65 + i))
  CanonicalPositionOf := fun c => if 65 ≤ c ∧ c ≤ 90 then (c : Int) - 65 else 0

/-- Modelled from the spec: `algorithm.Gcd` is declared outside `affine.go`.
The spec's validator computes `gcd(A, 26)`, the greatest common divisor. -/
def Gcd (a b : Int) : Int := (Int.gcd a b : Int)

/-! ## Keys and contexts -/

/-- The Go struct `Pair`: two bytes. -/
structure Pair where
  A : Nat
  B : Nat
deriving DecidableEq, Repr

/-- The Go struct `E`, the encryption context. -/
structure E where
  Pair : Pair
  alphabet : Alphabet

/-- The Go struct `D`, the decryption context. -/
structure D where
  Pair : Pair
  alphabet : Alphabet

/-- Modelled from the spec: the zero value of `algorithm.Alphabet`, whose
declaration is outside `affine.go`: an empty symbol table. -/
def Alphabet.zero : Alphabet := ⟨[], fun _ => 0⟩

/-- The zero value `E{}` of an encryption context. -/
def E.zero : E := ⟨⟨0, 0⟩, Alphabet.zero⟩

/-! ## The arithmetic core -/

/-- The Go function `gcd(a, b, &x, &y)`: the recursive extended Euclidean
algorithm. The result is `(g, x, y)`: the returned value and the contents of
the two out parameters after the call. -/
def gcd (a b : Int) : Int × Int × Int :=
  if a = 0 then
    (b, 0, 1)
  else
    let r := gcd (Int.tmod b a) a
    (r.1, r.2.2 - (Int.tdiv b a) * r.2.1, r.2.1)
termination_by a.natAbs
decreasing_by
  rename_i h
  have hk : (Int.tmod b a).natAbs = b.natAbs % a.natAbs := by
    cases a <;> cases b <;> simp [Int.tmod, Int.natAbs_neg] <;> rfl
  rw [hk]
  exact Nat.mod_lt _ (Int.natAbs_pos.mpr h)

/-- The Go function `modInverseIfCoprime(a, m)`. -/
def modInverseIfCoprime (a m : Int) : Int :=
  let r := gcd a m
  Int.tmod (Int.tmod r.2.1 m + m) m

/-- The Go function `norm(newPos)`. -/
def norm (newPos : Int) : Int :=
  if newPos < 0 then
    let newPos := newPos * (-1)
    let newPos := Int.tmod newPos 26
    26 - newPos
  else
    newPos

/-- The Go method `(e *E) Apply(x byte) byte`, in `byte` arithmetic: the
product and the sum wrap modulo `256` before the remainder is taken. -/
def E.Apply (e : E) (x : Nat) : Nat :=
  ((e.Pair.A * x) % 256 + e.Pair.B) % 256 % 26

/-- The Go method `(d *D) Apply(y byte) byte`, in `int` arithmetic. -/
def D.Apply (d : D) (y : Nat) : Nat :=
  let aInverse := modInverseIfCoprime (d.Pair.A : Int) 26
  let yInt : Int := y
  let bInt : Int := d.Pair.B
  toByte (norm (Int.tmod (aInverse * (yInt - bInt)) 26))

/-- The Go method `(e *E) Set(pair Pair) error`. The result is the receiver
after the call and the returned error (`none` for `nil`). -/
def E.Set (e : E) (pair : Affine.Pair) : E × Option String :=
  if Gcd (pair.A : Int) 26 ≠ 1 then
    (e, some "A and 26 must be relatively prime")
  else
    ({ e with Pair := pair, alphabet := GetAlphabet }, none)

/-- The Go method `(e *E) Inverse() D`. -/
def E.Inverse (e : E) : D := ⟨e.Pair, GetAlphabet⟩

/-! ## The text layer -/

/-- The Go call `strings.ToUpper(s)` on the characters of `s`, restricted to
its effect on ASCII: the letters `'a'..'z'` are mapped to `'A'..'Z'`. -/
def ToUpper (s : String) : String := ⟨s.data.map Char.toUpper⟩

/-- The Go call `strings.ToLower(s)` on the characters of `s`, restricted to
its effect on ASCII: the letters `'A'..'Z'` are mapped to `'a'..'z'`. -/
def ToLower (s : String) : String := ⟨s.data.map Char.toLower⟩

/-- The Go call `strings.ReplaceAll(s, " ", "")`: every space is removed. -/
def removeSpaces (s : String) : String := ⟨s.data.filter (fun c => c ≠ ' ')⟩

/-- Conversion `byte(ch)` of a rune to a `byte`: the low eight bits of its
code point. -/
def runeToByte (ch : Char) : Nat := ch.toNat % 256

/-- The loop `for _, ch := range input` of `Encrypt`, started with the
accumulator `enc`. An index outside `Chars` is a run-time panic: `none`. -/
def encryptLoop (fn : E) : List Char → String → Option String
  | [], enc => some enc
  | ch :: rest, enc =>
    let x := toByte (fn.alphabet.CanonicalPositionOf (runeToByte ch))
    let y := fn.Apply x
    match fn.alphabet.Chars[y]? with
    | none => none
    | some c => encryptLoop fn rest (enc.push c)

/-- The Go function `Encrypt(msg, fn)`. -/
def Encrypt (msg : String) (fn : E) : Option String :=
  let enc := ""
  let input := ToUpper msg
  let input := removeSpaces input
  (encryptLoop fn input.data enc).map ToLower

/-- The loop `for _, ch := range input` of `Decrypt`, started with the
accumulator `msg`. An index outside `Chars` is a run-time panic: `none`. -/
def decryptLoop (fn : D) : List Char → String → Option String
  | [], msg => some msg
  | ch :: rest, msg =>
    let y := toByte (fn.alphabet.CanonicalPositionOf (runeToByte ch))
    let x := fn.Apply y
    match fn.alphabet.Chars[x]? with
    | none => none
    | some c => decryptLoop fn rest (msg.push c)

/-- The Go function `Decrypt(enc, fn)`. -/
def Decrypt (enc : String) (fn : D) : Option String :=
  let msg := ""
  let input := ToUpper enc
  (decryptLoop fn input.data msg).map ToLower

/-! ## Call sequences and bounded recursion -/

/-- A sequence of calls `e.Set(p)` for the pairs `p` of `ps`, in order, each
on the receiver left by the one before; the errors are discarded. The result
is the receiver after the last call. -/
def E.SetAll (e : E) (ps : List Affine.Pair) : E :=
  ps.foldl (fun e p => (E.Set e p).1) e

/-- The Go function `gcd(a, b, &x, &y)` with its recursion depth bounded by
`fuel`: the same body as `gcd`, and `none` when more than `fuel` nested
calls would be needed. -/
def gcdFuel : Nat → Int → Int → Option (Int × Int × Int)
  | 0, _, _ => none
  | fuel + 1, a, b =>
    if a = 0 then
      some (b, 0, 1)
    else
      match gcdFuel fuel (Int.tmod b a) a with
      | none => none
      | some r => some (r.1, r.2.2 - (Int.tdiv b a) * r.2.1, r.2.1)

/-- The Go function `modInverseIfCoprime(a, m)` over the depth-bounded
`gcdFuel`. -/
def modInverseIfCoprimeFuel (fuel : Nat) (a m : Int) : Option Int :=
  match gcdFuel fuel a m with
  | none => none
  | some r => some (Int.tmod (Int.tmod r.2.1 m + m) m)

/-! ## Go's truncated division in terms of the Euclidean one -/

theorem neg_tmod (a b : Int) : Int.tmod (-a) b = -(Int.tmod a b) := by
  rw [Int.tmod_def, Int.tmod_def, Int.neg_tdiv]
  ring

theorem tmod_eq_ite (a b : Int) :
    Int.tmod a b = if 0 ≤ a then a % b else -((-a) % b) := by
  split
  · next h =>
    rcases Int.le_total 0 b with hb | hb
    · exact Int.tmod_eq_emod h hb
    · have := Int.tmod_eq_emod h (Int.neg_nonneg.mpr hb)
      rw [Int.tmod_neg, Int.emod_neg] at this
      exact this
  · next h =>
    have h' : 0 ≤ -a := by omega
    rcases Int.le_total 0 b with hb | hb
    · have := Int.tmod_eq_emod h' hb
      rw [neg_tmod] at this
      omega
    · have := Int.tmod_eq_emod h' (Int.neg_nonneg.mpr hb)
      rw [Int.tmod_neg, Int.emod_neg, neg_tmod] at this
      omega

theorem tdiv_eq_ite (a b : Int) :
    Int.tdiv a b = if 0 ≤ a then a / b else -((-a) / b) := by
  split
  · next h =>
    rcases Int.le_total 0 b with hb | hb
    · exact Int.tdiv_eq_ediv h hb
    · have := Int.tdiv_eq_ediv h (Int.neg_nonneg.mpr hb)
      rw [Int.tdiv_neg, Int.ediv_neg] at this
      omega
  · next h =>
    have h' : 0 ≤ -a := by omega
    rcases Int.le_total 0 b with hb | hb
    · have := Int.tdiv_eq_ediv h' hb
      rw [Int.neg_tdiv] at this
      omega
    · have := Int.tdiv_eq_ediv h' (Int.neg_nonneg.mpr hb)
      rw [Int.tdiv_neg, Int.ediv_neg, Int.neg_tdiv] at this
      omega

theorem gcd_zero_left (b : Int) : gcd 0 b = (b, 0, 1) := by
  rw [gcd]; simp

theorem gcd_of_ne_zero {a : Int} (b : Int) (h : a ≠ 0) :
    gcd a b = ((gcd (Int.tmod b a) a).1,
      (gcd (Int.tmod b a) a).2.2 - (Int.tdiv b a) * (gcd (Int.tmod b a) a).2.1,
      (gcd (Int.tmod b a) a).2.1) := by
  rw [gcd]; simp [h]

/-! ## The extended Euclidean algorithm -/

theorem gcd_bezout (a b : Int) :
    a * (gcd a b).2.1 + b * (gcd a b).2.2 = (gcd a b).1 := by
  induction a, b using gcd.induct with
  | case1 b => simp [gcd_zero_left]
  | case2 a b h ih =>
    rw [gcd_of_ne_zero b h]
    simp only
    have hd := Int.tmod_add_tdiv b a
    rw [← ih]
    linear_combination (-(gcd (Int.tmod b a) a).2.1) * hd

theorem gcd_fst (a b : Int) (ha : 0 ≤ a) (hb : 0 ≤ b) :
    (gcd a b).1 = (Int.gcd a b : Int) := by
  induction a, b using gcd.induct with
  | case1 b => simp [gcd_zero_left, Int.gcd_zero_left, abs_of_nonneg hb]
  | case2 a b h ih =>
    rw [gcd_of_ne_zero b h]
    simp only
    rw [ih (Int.tmod_nonneg a hb) ha, Int.tmod_eq_emod hb ha]
    obtain ⟨m, rfl⟩ := Int.eq_ofNat_of_zero_le ha
    obtain ⟨n, rfl⟩ := Int.eq_ofNat_of_zero_le hb
    rw [← Int.natCast_mod, Int.gcd_natCast_natCast, Int.gcd_natCast_natCast, ← Nat.gcd_rec]

theorem modInverseIfCoprime_eq_emod (a : Int) :
    modInverseIfCoprime a 26 = (gcd a 26).2.1 % 26 := by
  unfold modInverseIfCoprime
  simp only [tmod_eq_ite]
  split_ifs <;> omega

theorem modInverseIfCoprime_range (a : Int) :
    0 ≤ modInverseIfCoprime a 26 ∧ modInverseIfCoprime a 26 < 26 := by
  rw [modInverseIfCoprime_eq_emod]
  omega

theorem mul_modInverseIfCoprime (a : Int) (ha : 0 ≤ a) (hg : Int.gcd a 26 = 1) :
    (a * modInverseIfCoprime a 26) % 26 = 1 := by
  have hb := gcd_bezout a 26
  rw [gcd_fst a 26 ha (by decide), hg] at hb
  rw [modInverseIfCoprime_eq_emod, Int.mul_emod, Int.emod_emod_of_dvd _ (dvd_refl 26),
    ← Int.mul_emod]
  have hx : a * (gcd a 26).2.1 = 1 - 26 * (gcd a 26).2.2 := by
    have : ((1 : Nat) : Int) = 1 := rfl
    linarith
  rw [hx]
  omega

/-! ## The two residue transforms -/

theorem norm_tmod (p : Int) : norm (Int.tmod p 26) = p % 26 := by
  unfold norm
  simp only [tmod_eq_ite]
  split_ifs <;> omega

theorem toByte_of_residue (v : Int) (h0 : 0 ≤ v) (h1 : v < 26) :
    ((toByte v : Nat) : Int) = v := by
  unfold toByte
  omega

theorem D_Apply_eq_emod (d : D) (y : Nat) :
    ((D.Apply d y : Nat) : Int)
      = (modInverseIfCoprime (d.Pair.A : Int) 26 * ((y : Int) - (d.Pair.B : Int))) % 26 := by
  unfold D.Apply
  simp only
  rw [norm_tmod]
  exact toByte_of_residue _ (Int.emod_nonneg _ (by decide)) (Int.emod_lt_of_pos _ (by decide))

theorem Set_of_coprime (e : E) (pair : Pair) (h : Int.gcd (pair.A : Int) 26 = 1) :
    E.Set e pair = (⟨pair, GetAlphabet⟩, none) := by
  simp [E.Set, Gcd, h]

theorem Set_of_not_coprime (e : E) (pair : Pair) (h : Int.gcd (pair.A : Int) 26 ≠ 1) :
    E.Set e pair = (e, some "A and 26 must be relatively prime") := by
  have h' : ¬ ((Int.gcd (pair.A : Int) 26 : Int) = 1) := by exact_mod_cast h
  simp [E.Set, Gcd, h']

theorem D_Apply_affine_image (A B x : Nat) (al : Alphabet)
    (hg : Nat.gcd A 26 = 1) (hx : x < 26) :
    D.Apply ⟨⟨A, B⟩, al⟩ ((A * x + B) % 26) = x := by
  have hinv := mul_modInverseIfCoprime (A : Int) (Int.natCast_nonneg A)
    (by simpa [Int.gcd] using hg)
  have h := D_Apply_eq_emod ⟨⟨A, B⟩, al⟩ ((A * x + B) % 26)
  simp only at h
  have h1 : (((A * x + B) % 26 : Nat) : Int) - (B : Int) ≡ (A : Int) * x [ZMOD 26] := by
    have e1 : (((A * x + B) % 26 : Nat) : Int) ≡ (A : Int) * x + B [ZMOD 26] := by
      push_cast
      exact Int.mod_modEq _ _
    have e2 := e1.sub_right (B : Int)
    simpa using e2
  have h2 : (A : Int) * modInverseIfCoprime (A : Int) 26 ≡ 1 [ZMOD 26] := by
    unfold Int.ModEq
    rw [hinv]
    rfl
  have h3 : modInverseIfCoprime (A : Int) 26
        * ((((A * x + B) % 26 : Nat) : Int) - (B : Int)) ≡ (x : Int) [ZMOD 26] := by
    calc modInverseIfCoprime (A : Int) 26 * ((((A * x + B) % 26 : Nat) : Int) - (B : Int))
        ≡ modInverseIfCoprime (A : Int) 26 * ((A : Int) * x) [ZMOD 26] := h1.mul_left _
      _ = ((A : Int) * modInverseIfCoprime (A : Int) 26) * x := by ring
      _ ≡ 1 * x [ZMOD 26] := h2.mul_right _
      _ = x := by ring
  unfold Int.ModEq at h3
  rw [h3] at h
  omega

theorem D_Apply_lt (d : D) (y : Nat) : D.Apply d y < 26 := by
  have h := D_Apply_eq_emod d y
  have := Int.emod_lt_of_pos
    (modInverseIfCoprime (d.Pair.A : Int) 26 * ((y : Int) - (d.Pair.B : Int)))
    (show (0 : Int) < 26 by decide)
  omega

/-! ## The text layer on letters -/

theorem upper_eq_ofNat (c : Char) (h : c.isUpper = true) :
    ∃ n, n < 26 ∧ c = Char.ofNat (65 + n) := by
  simp [Char.isUpper] at h
  have h1 : 65 ≤ c.toNat := UInt32.le_def.mp h.1
  have h2 : c.toNat ≤ 90 := UInt32.le_def.mp h.2
  refine ⟨c.toNat - 65, by omega, ?_⟩
  have : 65 + (c.toNat - 65) = c.toNat := by omega
  rw [this, Char.ofNat_toNat]

theorem lower_eq_ofNat (c : Char) (h : c.isLower = true) :
    ∃ n, n < 26 ∧ c = Char.ofNat (97 + n) := by
  simp [Char.isLower] at h
  have h1 : 97 ≤ c.toNat := UInt32.le_def.mp h.1
  have h2 : c.toNat ≤ 122 := UInt32.le_def.mp h.2
  refine ⟨c.toNat - 97, by omega, ?_⟩
  have : 97 + (c.toNat - 97) = c.toNat := by omega
  rw [this, Char.ofNat_toNat]

theorem letter_cases (c : Char) (h : c.isAlpha = true) :
    ∃ n, n < 26 ∧ c.toUpper = Char.ofNat (65 + n) ∧ c.toLower = Char.ofNat (97 + n)
      ∧ c ≠ ' ' := by
  have hU : ∀ n < 26, (Char.ofNat (65 + n)).toUpper = Char.ofNat (65 + n)
      ∧ (Char.ofNat (65 + n)).toLower = Char.ofNat (97 + n)
      ∧ Char.ofNat (65 + n) ≠ ' ' := by decide
  have hL : ∀ n < 26, (Char.ofNat (97 + n)).toUpper = Char.ofNat (65 + n)
      ∧ (Char.ofNat (97 + n)).toLower = Char.ofNat (97 + n)
      ∧ Char.ofNat (97 + n) ≠ ' ' := by decide
  simp only [Char.isAlpha, Bool.or_eq_true] at h
  rcases h with h | h
  · obtain ⟨n, hn, rfl⟩ := upper_eq_ofNat c h
    exact ⟨n, hn, (hU n hn).1, (hU n hn).2.1, (hU n hn).2.2⟩
  · obtain ⟨n, hn, rfl⟩ := lower_eq_ofNat c h
    exact ⟨n, hn, (hL n hn).1, (hL n hn).2.1, (hL n hn).2.2⟩

theorem letters_indices (l : List Char) (h : ∀ c ∈ l, c.isAlpha = true) :
    ∃ ns : List Nat, (∀ n ∈ ns, n < 26)
      ∧ l.map Char.toUpper = ns.map (fun n => Char.ofNat (65 + n))
      ∧ l.map Char.toLower = ns.map (fun n => Char.ofNat (97 + n)) := by
  induction l with
  | nil => exact ⟨[], by simp, rfl, rfl⟩
  | cons c l ih =>
    obtain ⟨ns, h1, h2, h3⟩ := ih (fun c hc => h c (List.mem_cons_of_mem _ hc))
    obtain ⟨n, hn, hu, hl, _⟩ := letter_cases c (h c (List.mem_cons_self _ _))
    refine ⟨n :: ns, ?_, ?_, ?_⟩
    · intro m hm
      rcases List.mem_cons.mp hm with rfl | hm
      · exact hn
      · exact h1 m hm
    · simp [hu, h2]
    · simp [hl, h3]

theorem position_of_upper :
    ∀ n < 26, toByte (GetAlphabet.CanonicalPositionOf (runeToByte (Char.ofNat (65 + n)))) = n := by
  decide

theorem chars_of_position : ∀ k < 26, GetAlphabet.Chars[k]? = some (Char.ofNat (65 + k)) := by
  decide

theorem E_Apply_lt (e : E) (x : Nat) : E.Apply e x < 26 :=
  Nat.mod_lt _ (by decide)

theorem encryptLoop_upper (e : E) (he : e.alphabet = GetAlphabet) (ns : List Nat)
    (h : ∀ n ∈ ns, n < 26) (acc : String) :
    encryptLoop e (ns.map (fun n => Char.ofNat (65 + n))) acc
      = some ⟨acc.data ++ ns.map (fun n => Char.ofNat (65 + E.Apply e n))⟩ := by
  induction ns generalizing acc with
  | nil => simp [encryptLoop]
  | cons n ns ih =>
    have hn : n < 26 := h n (List.mem_cons_self _ _)
    simp only [List.map_cons, encryptLoop, he]
    rw [position_of_upper n hn, chars_of_position _ (E_Apply_lt e n)]
    simp only
    rw [ih (fun m hm => h m (List.mem_cons_of_mem _ hm))]
    simp [String.data_push]

theorem decryptLoop_upper (d : D) (hd : d.alphabet = GetAlphabet) (ns : List Nat)
    (h : ∀ n ∈ ns, n < 26) (acc : String) :
    decryptLoop d (ns.map (fun n => Char.ofNat (65 + n))) acc
      = some ⟨acc.data ++ ns.map (fun n => Char.ofNat (65 + D.Apply d n))⟩ := by
  induction ns generalizing acc with
  | nil => simp [decryptLoop]
  | cons n ns ih =>
    have hn : n < 26 := h n (List.mem_cons_self _ _)
    simp only [List.map_cons, decryptLoop, hd]
    rw [position_of_upper n hn, chars_of_position _ (D_Apply_lt d n)]
    simp only
    rw [ih (fun m hm => h m (List.mem_cons_of_mem _ hm))]
    simp [String.data_push]

theorem lower_upper_ofNat :
    ∀ n < 26, (Char.ofNat (65 + n)).toLower = Char.ofNat (97 + n)
      ∧ (Char.ofNat (97 + n)).toUpper = Char.ofNat (65 + n) := by
  decide

theorem removeSpaces_ToUpper (msg : String)
    (h : ∀ c ∈ msg.data, c.isAlpha = true ∨ c = ' ') :
    (removeSpaces (ToUpper msg)).data
      = (msg.data.filter (fun c => c ≠ ' ')).map Char.toUpper := by
  have hne : ∀ n < 26, Char.ofNat (65 + n) ≠ ' ' := by decide
  simp only [removeSpaces, ToUpper]
  rw [List.filter_map]
  congr 1
  apply List.filter_congr
  intro c hc
  rcases h c hc with hc | rfl
  · obtain ⟨n, hn, hu, _, hsp⟩ := letter_cases c hc
    have : c.toUpper ≠ ' ' := by rw [hu]; exact hne n hn
    simp [this, hsp]
  · decide

theorem Encrypt_letters (e : E) (he : e.alphabet = GetAlphabet) (msg : String)
    (ns : List Nat) (hns : ∀ n ∈ ns, n < 26)
    (hup : (removeSpaces (ToUpper msg)).data = ns.map (fun n => Char.ofNat (65 + n))) :
    Encrypt msg e = some ⟨ns.map (fun n => Char.ofNat (97 + E.Apply e n))⟩ := by
  simp only [Encrypt]
  rw [hup, encryptLoop_upper e he ns hns]
  simp only [Option.map_some', ToLower, List.map_map, String.data_append]
  congr 2
  simp only [show ("" : String).data = [] from rfl, List.nil_append, List.map_map]
  apply List.map_congr_left
  intro n _
  exact (lower_upper_ofNat _ (E_Apply_lt e n)).1

theorem Decrypt_letters (d : D) (hd : d.alphabet = GetAlphabet) (ms : List Nat)
    (hms : ∀ m ∈ ms, m < 26) :
    Decrypt ⟨ms.map (fun m => Char.ofNat (97 + m))⟩ d
      = some ⟨ms.map (fun m => Char.ofNat (97 + D.Apply d m))⟩ := by
  have hup : (ToUpper ⟨ms.map (fun m => Char.ofNat (97 + m))⟩).data
      = ms.map (fun m => Char.ofNat (65 + m)) := by
    simp only [ToUpper, List.map_map]
    apply List.map_congr_left
    intro m hm
    exact (lower_upper_ofNat m (hms m hm)).2
  simp only [Decrypt]
  rw [hup, decryptLoop_upper d hd ms hms]
  simp only [Option.map_some', ToLower]
  congr 2
  simp only [show ("" : String).data = [] from rfl, List.nil_append, List.map_map]
  apply List.map_congr_left
  intro m _
  exact (lower_upper_ofNat _ (D_Apply_lt d m)).1

theorem text_round_trip_of_residues (e : E) (he : e.alphabet = GetAlphabet)
    (hrt : ∀ n < 26, D.Apply (E.Inverse e) (E.Apply e n) = n) (msg : String)
    (h : ∀ c ∈ msg.data, c.isAlpha = true ∨ c = ' ') :
    (Encrypt msg e).bind (fun enc => Decrypt enc (E.Inverse e))
      = some (ToLower (removeSpaces msg)) := by
  have hl : ∀ c ∈ msg.data.filter (fun c => c ≠ ' '), c.isAlpha = true := by
    intro c hc
    rw [List.mem_filter] at hc
    rcases h c hc.1 with hA | hS
    · exact hA
    · simp [hS] at hc
  obtain ⟨ns, hns, hU, hL⟩ := letters_indices _ hl
  have hup := removeSpaces_ToUpper msg h
  rw [hU] at hup
  rw [Encrypt_letters e he msg ns hns hup]
  simp only [Option.some_bind]
  have hms : ∀ m ∈ ns.map (E.Apply e), m < 26 := by
    intro m hm
    obtain ⟨n, _, rfl⟩ := List.mem_map.mp hm
    exact E_Apply_lt e n
  have hd := Decrypt_letters (E.Inverse e) rfl (ns.map (E.Apply e)) hms
  simp only [List.map_map] at hd
  have hfun : (fun m => Char.ofNat (97 + m)) ∘ E.Apply e
      = fun n => Char.ofNat (97 + E.Apply e n) := rfl
  rw [hfun] at hd
  rw [hd]
  congr 2
  simp only [removeSpaces, ToLower]
  rw [hL]
  apply List.map_congr_left
  intro n hn
  simp only [Function.comp]
  rw [hrt n (hns n hn)]

/-! ## The claims -/

/-- C1 (round trip), evaluated on the code: the pair `(11, 5)` is accepted
by `Set`, yet the residue `25` is encoded to `24` and `24` is decoded to
`23`, not back to `25`; the byte product `11 * 25 = 275` wraps modulo `256`
inside `E.Apply`. -/
theorem round_trip_breaks_on_byte_wrap :
    (E.Set E.zero ⟨11, 5⟩).2 = none
      ∧ E.Apply (E.Set E.zero ⟨11, 5⟩).1 25 = 24
      ∧ D.Apply (E.Inverse (E.Set E.zero ⟨11, 5⟩).1) (E.Apply (E.Set E.zero ⟨11, 5⟩).1 25) = 23
      ∧ D.Apply (E.Inverse (E.Set E.zero ⟨11, 5⟩).1) (E.Apply (E.Set E.zero ⟨11, 5⟩).1 25) ≠ 25 := by
  have hs : E.Set E.zero ⟨11, 5⟩ = (⟨⟨11, 5⟩, GetAlphabet⟩, none) :=
    Set_of_coprime _ _ (by decide)
  have he : E.Apply ⟨⟨11, 5⟩, GetAlphabet⟩ 25 = 24 := by decide
  have hd : D.Apply ⟨⟨11, 5⟩, GetAlphabet⟩ 24 = 23 := by
    simp [D.Apply, modInverseIfCoprime, gcd_of_ne_zero, gcd_zero_left, norm, toByte,
      tmod_eq_ite, tdiv_eq_ite]
  rw [hs]
  simp only [E.Inverse, he, hd]
  decide

/-- C2 (encode formula), evaluated on the code: for the pair `(25, 25)` and
the residue `25` the integer value `(25 * 25 + 25) mod 26` is `0`, while
`E.Apply` returns `8`, the remainder of the wrapped byte `650 mod 256 = 138`. -/
theorem encode_formula_breaks_on_byte_wrap :
    (E.Set E.zero ⟨25, 25⟩).2 = none
      ∧ E.Apply (E.Set E.zero ⟨25, 25⟩).1 25 = 8
      ∧ (25 * 25 + 25) % 26 = 0 := by
  have hs : E.Set E.zero ⟨25, 25⟩ = (⟨⟨25, 25⟩, GetAlphabet⟩, none) :=
    Set_of_coprime _ _ (by decide)
  rw [hs]
  decide

/-- C3 (decode formula): for all `A`, `B` and `y`, in particular for all byte
values, `D.Apply(y)` is the non-negative remainder modulo `26` of the integer
`modInverseIfCoprime(A, 26) * (y - B)`, a value in `[0, 26)`, whatever the
sign of `y - B`. -/
theorem decode_formula (d : D) (y : Nat) :
    ((D.Apply d y : Nat) : Int)
        = (modInverseIfCoprime (d.Pair.A : Int) 26 * ((y : Int) - (d.Pair.B : Int))) % 26
      ∧ D.Apply d y < 26 := by
  have h := D_Apply_eq_emod d y
  refine ⟨h, ?_⟩
  have := Int.emod_lt_of_pos
    (modInverseIfCoprime (d.Pair.A : Int) 26 * ((y : Int) - (d.Pair.B : Int)))
    (show (0 : Int) < 26 by decide)
  omega

/-- C4 (inverse correctness): for every integer `a >= 0` with
`gcd(a, 26) = 1`, the value `r = modInverseIfCoprime(a, 26)` satisfies
`0 <= r < 26` and `(a * r) mod 26 = 1`. -/
theorem inverse_correct (a : Int) (ha : 0 ≤ a) (hg : Int.gcd a 26 = 1) :
    0 ≤ modInverseIfCoprime a 26 ∧ modInverseIfCoprime a 26 < 26
      ∧ (a * modInverseIfCoprime a 26) % 26 = 1 :=
  ⟨(modInverseIfCoprime_range a).1, (modInverseIfCoprime_range a).2,
    mul_modInverseIfCoprime a ha hg⟩

/-- Witness of C4 at the byte value `a = 255`. -/
theorem inverse_correct_witness :
    (0 : Int) ≤ 255 ∧ Int.gcd 255 26 = 1
      ∧ 0 ≤ modInverseIfCoprime 255 26 ∧ modInverseIfCoprime 255 26 < 26
      ∧ (255 * modInverseIfCoprime 255 26) % 26 = 1 :=
  ⟨by decide, by decide, inverse_correct 255 (by decide) (by decide)⟩

theorem Set_error_isNone (e : E) (pair : Pair) :
    (E.Set e pair).2.isNone = decide (Nat.gcd pair.A 26 = 1) := by
  by_cases h : Nat.gcd pair.A 26 = 1
  · have h' : Int.gcd (pair.A : Int) 26 = 1 := by simpa [Int.gcd] using h
    rw [Set_of_coprime e pair h']
    simp [h]
  · have h' : Int.gcd (pair.A : Int) 26 ≠ 1 := by simpa [Int.gcd] using h
    rw [Set_of_not_coprime e pair h']
    simp [h]

/-- C5 (key validity): with `algorithm.Gcd` the greatest common divisor,
`Set(pair)` returns no error exactly when `gcd(pair.A, 26) = 1`; the
multipliers below `26` that are accepted are exactly the twelve values
`1, 3, 5, 7, 9, 11, 15, 17, 19, 21, 23, 25`; and the outcome is the same for
every `B` and every receiver. -/
theorem key_validity (e : E) (pair : Pair) :
    ((E.Set e pair).2 = none ↔ Nat.gcd pair.A 26 = 1)
      ∧ (List.range 26).filter (fun A => (E.Set e ⟨A, pair.B⟩).2.isNone)
          = [1, 3, 5, 7, 9, 11, 15, 17, 19, 21, 23, 25]
      ∧ ∀ (e' : E) (B' : Nat),
          ((E.Set e' ⟨pair.A, B'⟩).2 = none ↔ (E.Set e pair).2 = none) := by
  have key : ∀ (e₁ : E) (p : Pair), (E.Set e₁ p).2 = none ↔ Nat.gcd p.A 26 = 1 := by
    intro e₁ p
    have h := Set_error_isNone e₁ p
    rw [← Option.isNone_iff_eq_none, h]
    simp
  refine ⟨key e pair, ?_, ?_⟩
  · have hf : (fun A => (E.Set e ⟨A, pair.B⟩).2.isNone)
        = fun A => decide (Nat.gcd A 26 = 1) := by
      funext A
      exact Set_error_isNone e ⟨A, pair.B⟩
    rw [hf]
    decide
  · intro e' B'
    rw [key e' ⟨pair.A, B'⟩, key e pair]

/-- C6 as stated fails: on the zero value of `E`, whose pair is `(0, 0)`,
the call `Set(Pair{0, 0})` is rejected (`gcd(0, 26) = 26`), and afterwards
both the receiver and its `Inverse()` hold the rejected pair. -/
theorem rejected_pair_still_held :
    (E.Set E.zero ⟨0, 0⟩).2 ≠ none
      ∧ (E.Set E.zero ⟨0, 0⟩).1.Pair = ⟨0, 0⟩
      ∧ (E.Inverse (E.Set E.zero ⟨0, 0⟩).1).Pair = ⟨0, 0⟩ := by
  have hs := Set_of_not_coprime E.zero ⟨0, 0⟩ (by decide)
  rw [hs]
  exact ⟨by simp, rfl, rfl⟩

/-- C6 (rejection is atomic), amended: a pair whose `A` is not coprime to
`26` makes `Set` return an error and leave the receiver as it was, so that
a receiver which did not hold that pair before does not hold it afterwards,
and neither does its `Inverse()`; a pair whose `A` is coprime to `26` makes
`Set` return no error and the receiver hold that pair. -/
theorem rejection_atomic (e : E) (pair : Pair) :
    (Nat.gcd pair.A 26 ≠ 1 →
        (E.Set e pair).2 ≠ none ∧ (E.Set e pair).1 = e
          ∧ (E.Set e pair).1.Pair = e.Pair
          ∧ (e.Pair ≠ pair →
              (E.Set e pair).1.Pair ≠ pair ∧ (E.Inverse (E.Set e pair).1).Pair ≠ pair))
      ∧ (Nat.gcd pair.A 26 = 1 →
          (E.Set e pair).2 = none ∧ (E.Set e pair).1.Pair = pair) := by
  constructor
  · intro h
    have h' : Int.gcd (pair.A : Int) 26 ≠ 1 := by simpa [Int.gcd] using h
    rw [Set_of_not_coprime e pair h']
    exact ⟨by simp, rfl, rfl, fun hne => ⟨hne, hne⟩⟩
  · intro h
    have h' : Int.gcd (pair.A : Int) 26 = 1 := by simpa [Int.gcd] using h
    rw [Set_of_coprime e pair h']
    exact ⟨rfl, rfl⟩

/-- Witness of C6: the rejected pair `(4, 0)` on a receiver holding `(5, 8)`,
and the accepted pair `(5, 8)` on the zero value. -/
theorem rejection_atomic_witness :
    (Nat.gcd 4 26 ≠ 1
        ∧ (E.Set ⟨⟨5, 8⟩, GetAlphabet⟩ ⟨4, 0⟩).2 ≠ none
        ∧ (E.Set ⟨⟨5, 8⟩, GetAlphabet⟩ ⟨4, 0⟩).1.Pair = ⟨5, 8⟩
        ∧ (E.Inverse (E.Set ⟨⟨5, 8⟩, GetAlphabet⟩ ⟨4, 0⟩).1).Pair ≠ ⟨4, 0⟩)
      ∧ (Nat.gcd 5 26 = 1
        ∧ (E.Set E.zero ⟨5, 8⟩).2 = none ∧ (E.Set E.zero ⟨5, 8⟩).1.Pair = ⟨5, 8⟩) :=
  ⟨⟨by decide,
      ((rejection_atomic ⟨⟨5, 8⟩, GetAlphabet⟩ ⟨4, 0⟩).1 (by decide)).1,
      ((rejection_atomic ⟨⟨5, 8⟩, GetAlphabet⟩ ⟨4, 0⟩).1 (by decide)).2.2.1,
      (((rejection_atomic ⟨⟨5, 8⟩, GetAlphabet⟩ ⟨4, 0⟩).1 (by decide)).2.2.2 (by decide)).2⟩,
    ⟨by decide, (rejection_atomic E.zero ⟨5, 8⟩).2 (by decide)⟩⟩

/-- C7 (decryption recovers `x` from the exact affine image): for every `A`
with `gcd(A, 26) = 1`, every `B` (in particular all byte values) and every
residue `x < 26`, the `D` holding `(A, B)` maps the integer
`(A * x + B) mod 26` back to `x`. -/
theorem decode_affine_image (A B x : Nat) (al : Alphabet)
    (hg : Nat.gcd A 26 = 1) (hx : x < 26) :
    D.Apply ⟨⟨A, B⟩, al⟩ ((A * x + B) % 26) = x :=
  D_Apply_affine_image A B x al hg hx

/-- Witness of C7 at the byte values `A = 255`, `B = 255` and `x = 25`. -/
theorem decode_affine_image_witness :
    Nat.gcd 255 26 = 1 ∧ 25 < 26
      ∧ D.Apply ⟨⟨255, 255⟩, GetAlphabet⟩ ((255 * 25 + 255) % 26) = 25 :=
  ⟨by decide, by decide, decode_affine_image 255 255 25 GetAlphabet (by decide) (by decide)⟩

/-- C8 (negative-residue normalisation), evaluated on the code: `norm(-26)`
is `26`, not `0`; the other three boundary values are as claimed. -/
theorem norm_boundary_values :
    norm (-26) = 26 ∧ norm (-26) ≠ 0 ∧ norm (-1) = 25 ∧ norm 0 = 0 ∧ norm 25 = 25 := by
  decide

/-- C9 (extended Euclid): for all integers `a >= 0` and `b >= 0` the call
`gcd(a, b, &x, &y)` returns the greatest common divisor of `a` and `b`,
leaves in `x` and `y` coefficients with `a * x + b * y = g`, returns `b`
when `a = 0`, and for `a` coprime to `26` gives `a * x + 26 * y = 1`. -/
theorem extended_euclid (a b : Int) (ha : 0 ≤ a) (hb : 0 ≤ b) :
    (gcd a b).1 = (Int.gcd a b : Int)
      ∧ a * (gcd a b).2.1 + b * (gcd a b).2.2 = (gcd a b).1
      ∧ (gcd 0 b).1 = b
      ∧ (Int.gcd a 26 = 1 → a * (gcd a 26).2.1 + 26 * (gcd a 26).2.2 = 1) := by
  refine ⟨gcd_fst a b ha hb, gcd_bezout a b, by rw [gcd_zero_left], ?_⟩
  intro hg
  have h := gcd_bezout a 26
  rw [gcd_fst a 26 ha (by decide), hg] at h
  exact_mod_cast h

/-- Witness of C9 at `a = 5`, `b = 26`. -/
theorem extended_euclid_witness :
    (0 : Int) ≤ 5 ∧ (0 : Int) ≤ 26
      ∧ (gcd 5 26).1 = (Int.gcd 5 26 : Int)
      ∧ 5 * (gcd 5 26).2.1 + 26 * (gcd 5 26).2.2 = (gcd 5 26).1
      ∧ (gcd 0 26).1 = 26
      ∧ (Int.gcd 5 26 = 1 → 5 * (gcd 5 26).2.1 + 26 * (gcd 5 26).2.2 = 1) :=
  ⟨by decide, by decide, extended_euclid 5 26 (by decide) (by decide)⟩

/-- C10 (text round trip for `A = 5`, `B = 8`): with the canonical alphabet and
`e` the context holding `(5, 8)` after `Set`, every message made of ASCII
letters and spaces is encrypted without a failed lookup and
`Decrypt(Encrypt(msg, e), e.Inverse())` is `msg` lower-cased with its spaces
removed; `Encrypt("hello", e)` is `"rclla"`, which decrypts to `"hello"`. -/
theorem text_round_trip (e0 : E) (msg : String)
    (h : ∀ c ∈ msg.data, c.isAlpha = true ∨ c = ' ') :
    (E.Set e0 ⟨5, 8⟩).2 = none
      ∧ (Encrypt msg (E.Set e0 ⟨5, 8⟩).1).bind
          (fun enc => Decrypt enc (E.Inverse (E.Set e0 ⟨5, 8⟩).1))
          = some (ToLower (removeSpaces msg))
      ∧ Encrypt "hello" (E.Set e0 ⟨5, 8⟩).1 = some "rclla"
      ∧ Decrypt "rclla" (E.Inverse (E.Set e0 ⟨5, 8⟩).1) = some "hello" := by
  have hs : E.Set e0 ⟨5, 8⟩ = (⟨⟨5, 8⟩, GetAlphabet⟩, none) :=
    Set_of_coprime _ _ (by decide)
  rw [hs]
  simp only
  have hrt : ∀ n < 26, D.Apply (E.Inverse ⟨⟨5, 8⟩, GetAlphabet⟩)
      (E.Apply ⟨⟨5, 8⟩, GetAlphabet⟩ n) = n := by
    intro n hn
    have hE : ∀ k < 26, E.Apply ⟨⟨5, 8⟩, GetAlphabet⟩ k = (5 * k + 8) % 26 := by decide
    rw [hE n hn]
    exact D_Apply_affine_image 5 8 n GetAlphabet (by decide) hn
  have hall := text_round_trip_of_residues ⟨⟨5, 8⟩, GetAlphabet⟩ rfl hrt
  have hhello : Encrypt "hello" ⟨⟨5, 8⟩, GetAlphabet⟩ = some "rclla" := by decide
  refine ⟨trivial, hall msg h, hhello, ?_⟩
  have h2 := hall "hello" (by decide)
  rw [hhello] at h2
  simpa using h2

/-- Witness of C10 at the message `"Hello World"`. -/
theorem text_round_trip_witness :
    (∀ c ∈ "Hello World".data, c.isAlpha = true ∨ c = ' ')
      ∧ (Encrypt "Hello World" (E.Set E.zero ⟨5, 8⟩).1).bind
          (fun enc => Decrypt enc (E.Inverse (E.Set E.zero ⟨5, 8⟩).1))
          = some (ToLower (removeSpaces "Hello World")) :=
  ⟨by decide, (text_round_trip E.zero "Hello World" (by decide)).2.1⟩

/-! ## Range of the transforms and table lookups -/

theorem norm_tmod_range (p : Int) :
    0 ≤ norm (Int.tmod p 26) ∧ norm (Int.tmod p 26) < 26 := by
  rw [norm_tmod]
  omega

theorem D_Apply_no_truncation (d : D) (y : Nat) :
    ((D.Apply d y : Nat) : Int)
      = norm (Int.tmod (modInverseIfCoprime (d.Pair.A : Int) 26
          * ((y : Int) - (d.Pair.B : Int))) 26) := by
  rw [D_Apply_eq_emod, norm_tmod]

theorem lookup_of_lt (al : Alphabet) (hlen : al.Chars.length = 26) (k : Nat) (hk : k < 26) :
    ∃ c, al.Chars[k]? = some c := by
  have hk' : k < al.Chars.length := by omega
  exact ⟨al.Chars[k], List.getElem?_eq_getElem hk'⟩

theorem encryptLoop_isSome (e : E) (hlen : e.alphabet.Chars.length = 26) (l : List Char)
    (acc : String) : (encryptLoop e l acc).isSome = true := by
  induction l generalizing acc with
  | nil => simp [encryptLoop]
  | cons ch rest ih =>
    obtain ⟨c, hc⟩ := lookup_of_lt e.alphabet hlen
      (E.Apply e (toByte (e.alphabet.CanonicalPositionOf (runeToByte ch)))) (E_Apply_lt e _)
    simp only [encryptLoop, hc]
    exact ih _

theorem decryptLoop_isSome (d : D) (hlen : d.alphabet.Chars.length = 26) (l : List Char)
    (acc : String) : (decryptLoop d l acc).isSome = true := by
  induction l generalizing acc with
  | nil => simp [decryptLoop]
  | cons ch rest ih =>
    obtain ⟨c, hc⟩ := lookup_of_lt d.alphabet hlen
      (D.Apply d (toByte (d.alphabet.CanonicalPositionOf (runeToByte ch)))) (D_Apply_lt d _)
    simp only [decryptLoop, hc]
    exact ih _

/-- C11 (range of both transforms): for all `A`, `B`, `x` and `y`, valid key
or not, `E.Apply(x) < 26` and `D.Apply(y) < 26`; the `int` that `D.Apply`
converts to `byte` lies in `[0, 26)` and is the value returned; hence with a
26-symbol table the lookups `Chars[y]` of `Encrypt` and `Chars[x]` of
`Decrypt` are in range and both functions return a string on every input. -/
theorem transforms_in_range (e : E) (d : D) (x y : Nat) :
    E.Apply e x < 26 ∧ D.Apply d y < 26
      ∧ 0 ≤ norm (Int.tmod (modInverseIfCoprime (d.Pair.A : Int) 26
          * ((y : Int) - (d.Pair.B : Int))) 26)
      ∧ norm (Int.tmod (modInverseIfCoprime (d.Pair.A : Int) 26
          * ((y : Int) - (d.Pair.B : Int))) 26) < 26
      ∧ ((D.Apply d y : Nat) : Int)
          = norm (Int.tmod (modInverseIfCoprime (d.Pair.A : Int) 26
              * ((y : Int) - (d.Pair.B : Int))) 26)
      ∧ (e.alphabet.Chars.length = 26 →
          (∃ c, e.alphabet.Chars[E.Apply e x]? = some c)
            ∧ ∀ msg : String, (Encrypt msg e).isSome = true)
      ∧ (d.alphabet.Chars.length = 26 →
          (∃ c, d.alphabet.Chars[D.Apply d y]? = some c)
            ∧ ∀ enc : String, (Decrypt enc d).isSome = true) := by
  refine ⟨E_Apply_lt e x, D_Apply_lt d y, (norm_tmod_range _).1, (norm_tmod_range _).2,
    D_Apply_no_truncation d y, ?_, ?_⟩
  · intro hlen
    refine ⟨lookup_of_lt e.alphabet hlen _ (E_Apply_lt e x), ?_⟩
    intro msg
    simp only [Encrypt, Option.isSome_map']
    exact encryptLoop_isSome e hlen _ _
  · intro hlen
    refine ⟨lookup_of_lt d.alphabet hlen _ (D_Apply_lt d y), ?_⟩
    intro enc
    simp only [Decrypt, Option.isSome_map']
    exact decryptLoop_isSome d hlen _ _

/-- Witness of C11 at the invalid key `(4, 255)` with the canonical
alphabet and the bytes `x = y = 255`. -/
theorem transforms_in_range_witness :
    GetAlphabet.Chars.length = 26
      ∧ E.Apply ⟨⟨4, 255⟩, GetAlphabet⟩ 255 < 26
      ∧ D.Apply ⟨⟨4, 255⟩, GetAlphabet⟩ 255 < 26
      ∧ (∀ msg : String, (Encrypt msg ⟨⟨4, 255⟩, GetAlphabet⟩).isSome = true)
      ∧ (∀ enc : String, (Decrypt enc ⟨⟨4, 255⟩, GetAlphabet⟩).isSome = true) :=
  ⟨by decide,
    (transforms_in_range ⟨⟨4, 255⟩, GetAlphabet⟩ ⟨⟨4, 255⟩, GetAlphabet⟩ 255 255).1,
    (transforms_in_range ⟨⟨4, 255⟩, GetAlphabet⟩ ⟨⟨4, 255⟩, GetAlphabet⟩ 255 255).2.1,
    ((transforms_in_range ⟨⟨4, 255⟩, GetAlphabet⟩ ⟨⟨4, 255⟩, GetAlphabet⟩ 255
      255).2.2.2.2.2.1 (by decide)).2,
    ((transforms_in_range ⟨⟨4, 255⟩, GetAlphabet⟩ ⟨⟨4, 255⟩, GetAlphabet⟩ 255
      255).2.2.2.2.2.2 (by decide)).2⟩

/-! ## The key invariant over sequences of `Set` -/

theorem Set_Pair (e : E) (pair : Pair) :
    (E.Set e pair).1.Pair = if Nat.gcd pair.A 26 = 1 then pair else e.Pair := by
  by_cases h : Nat.gcd pair.A 26 = 1
  · rw [Set_of_coprime e pair (by simpa [Int.gcd] using h), if_pos h]
  · rw [Set_of_not_coprime e pair (by simpa [Int.gcd] using h), if_neg h]

theorem Set_keeps_coprime (e : E) (pair : Pair) (h : Nat.gcd e.Pair.A 26 = 1) :
    Nat.gcd (E.Set e pair).1.Pair.A 26 = 1 := by
  rw [Set_Pair]
  split
  · next hp => exact hp
  · exact h

theorem SetAll_cons (e : E) (p : Pair) (ps : List Pair) :
    E.SetAll e (p :: ps) = E.SetAll (E.Set e p).1 ps := rfl

theorem SetAll_keeps_coprime (e : E) (ps : List Pair) (h : Nat.gcd e.Pair.A 26 = 1) :
    Nat.gcd (E.SetAll e ps).Pair.A 26 = 1 := by
  induction ps generalizing e with
  | nil => exact h
  | cons p ps ih =>
    rw [SetAll_cons]
    exact ih _ (Set_keeps_coprime e p h)

theorem SetAll_of_accepted (e : E) (ps : List Pair)
    (h : ∃ p ∈ ps, Nat.gcd p.A 26 = 1) :
    Nat.gcd (E.SetAll e ps).Pair.A 26 = 1 := by
  induction ps generalizing e with
  | nil => simp at h
  | cons p ps ih =>
    rw [SetAll_cons]
    by_cases hp : Nat.gcd p.A 26 = 1
    · apply SetAll_keeps_coprime
      rw [Set_Pair, if_pos hp]
      exact hp
    · apply ih
      obtain ⟨q, hq, hg⟩ := h
      rcases List.mem_cons.mp hq with rfl | hq
      · exact absurd hg hp
      · exact ⟨q, hq, hg⟩

theorem SetAll_of_all_rejected (e : E) (ps : List Pair)
    (h : ∀ p ∈ ps, Nat.gcd p.A 26 ≠ 1) :
    E.SetAll e ps = e := by
  induction ps generalizing e with
  | nil => rfl
  | cons p ps ih =>
    rw [SetAll_cons,
      Set_of_not_coprime e p (by simpa [Int.gcd] using h p (List.mem_cons_self _ _))]
    exact ih e (fun q hq => h q (List.mem_cons_of_mem _ hq))

theorem Set_accepted_iff (e : E) (pair : Pair) :
    (E.Set e pair).2 = none ↔ Nat.gcd pair.A 26 = 1 := by
  rw [← Option.isNone_iff_eq_none, Set_error_isNone]
  simp

/-- C12 (the key invariant is kept by `Set`): if `gcd(e.Pair.A, 26) = 1`
before `e.Set(pair)` it holds after the call, accepted or rejected; it holds
after every accepted call whatever the state before; and after an accepted
call followed by any further `Set` calls the `D` returned by `Inverse()` has
a multiplier coprime to `26`. -/
theorem key_invariant_kept (e : E) (pair : Pair) :
    (Nat.gcd e.Pair.A 26 = 1 → Nat.gcd (E.Set e pair).1.Pair.A 26 = 1)
      ∧ ((E.Set e pair).2 = none → Nat.gcd (E.Set e pair).1.Pair.A 26 = 1)
      ∧ ((E.Set e pair).2 = none → ∀ ps : List Pair,
          Nat.gcd (E.Inverse (E.SetAll (E.Set e pair).1 ps)).Pair.A 26 = 1) := by
  have hacc : (E.Set e pair).2 = none → Nat.gcd (E.Set e pair).1.Pair.A 26 = 1 := by
    intro h
    have hp := (Set_accepted_iff e pair).mp h
    rw [Set_Pair, if_pos hp]
    exact hp
  refine ⟨Set_keeps_coprime e pair, hacc, ?_⟩
  intro h ps
  exact SetAll_keeps_coprime _ ps (hacc h)

/-- Witness of C12: on a receiver holding `(5, 8)` the rejected pair `(4, 0)`,
and on the zero value the accepted pair `(5, 8)` followed by two further
calls. -/
theorem key_invariant_kept_witness :
    (Nat.gcd (5 : Nat) 26 = 1
        ∧ Nat.gcd (E.Set ⟨⟨5, 8⟩, GetAlphabet⟩ ⟨4, 0⟩).1.Pair.A 26 = 1)
      ∧ ((E.Set E.zero ⟨5, 8⟩).2 = none
        ∧ Nat.gcd (E.Set E.zero ⟨5, 8⟩).1.Pair.A 26 = 1
        ∧ Nat.gcd (E.Inverse
            (E.SetAll (E.Set E.zero ⟨5, 8⟩).1 [⟨4, 0⟩, ⟨7, 3⟩])).Pair.A 26 = 1) :=
  have hok : (E.Set E.zero ⟨5, 8⟩).2 = none :=
    (Set_accepted_iff E.zero ⟨5, 8⟩).mpr (by decide)
  ⟨⟨by decide, (key_invariant_kept ⟨⟨5, 8⟩, GetAlphabet⟩ ⟨4, 0⟩).1 (by decide)⟩,
    ⟨hok, (key_invariant_kept E.zero ⟨5, 8⟩).2.1 hok,
      (key_invariant_kept E.zero ⟨5, 8⟩).2.2 hok [⟨4, 0⟩, ⟨7, 3⟩]⟩⟩

/-- C13 as stated fails: the zero value of `E`, reached by the empty sequence
of `Set` calls and also by a sequence in which every call is rejected, holds
the multiplier `0`, and `gcd(0, 26) = 26`. -/
theorem zero_value_not_decodable :
    Nat.gcd (E.SetAll E.zero []).Pair.A 26 = 26
      ∧ Nat.gcd (E.SetAll E.zero [⟨4, 0⟩, ⟨13, 1⟩]).Pair.A 26 = 26
      ∧ Nat.gcd (E.Inverse (E.SetAll E.zero [])).Pair.A 26 ≠ 1 := by
  have h2 : E.SetAll E.zero [⟨4, 0⟩, ⟨13, 1⟩] = E.zero :=
    SetAll_of_all_rejected E.zero _ (by decide)
  rw [h2]
  decide

/-- C13 (any constructed context is decodable), amended: in every state of
an `E` reached from its zero value by a sequence of `Set` calls of which at
least one is accepted, `gcd(e.Pair.A, 26) = 1` and the multiplier of the `D`
returned by `Inverse()` is invertible through `modInverseIfCoprime`; when no
call of the sequence is accepted the state is still the zero value. -/
theorem constructed_context_decodable (ps : List Pair) :
    ((∃ p ∈ ps, Nat.gcd p.A 26 = 1) →
        Nat.gcd (E.SetAll E.zero ps).Pair.A 26 = 1
          ∧ Nat.gcd (E.Inverse (E.SetAll E.zero ps)).Pair.A 26 = 1
          ∧ (((E.Inverse (E.SetAll E.zero ps)).Pair.A : Int)
              * modInverseIfCoprime ((E.Inverse (E.SetAll E.zero ps)).Pair.A : Int) 26) % 26
              = 1)
      ∧ ((∀ p ∈ ps, Nat.gcd p.A 26 ≠ 1) → E.SetAll E.zero ps = E.zero) := by
  refine ⟨?_, SetAll_of_all_rejected E.zero ps⟩
  intro h
  have hg := SetAll_of_accepted E.zero ps h
  refine ⟨hg, hg, ?_⟩
  exact mul_modInverseIfCoprime _ (Int.natCast_nonneg _) (by simpa [Int.gcd, E.Inverse] using hg)

/-- Witness of C13: the sequence `Set(4, 0)`, `Set(5, 8)`, `Set(13, 1)` from
the zero value, and the sequence `Set(4, 0)`, `Set(13, 1)`. -/
theorem constructed_context_decodable_witness :
    ((∃ p ∈ ([⟨4, 0⟩, ⟨5, 8⟩, ⟨13, 1⟩] : List Pair), Nat.gcd p.A 26 = 1)
        ∧ Nat.gcd (E.SetAll E.zero [⟨4, 0⟩, ⟨5, 8⟩, ⟨13, 1⟩]).Pair.A 26 = 1)
      ∧ ((∀ p ∈ ([⟨4, 0⟩, ⟨13, 1⟩] : List Pair), Nat.gcd p.A 26 ≠ 1)
        ∧ E.SetAll E.zero [⟨4, 0⟩, ⟨13, 1⟩] = E.zero) :=
  ⟨⟨by decide,
      ((constructed_context_decodable [⟨4, 0⟩, ⟨5, 8⟩, ⟨13, 1⟩]).1 (by decide)).1⟩,
    ⟨by decide, (constructed_context_decodable [⟨4, 0⟩, ⟨13, 1⟩]).2 (by decide)⟩⟩

/-! ## The exact domain of the residue round trip -/

theorem affine_image_of_D_Apply (A B y : Nat) (al : Alphabet)
    (hg : Nat.gcd A 26 = 1) (hy : y < 26) :
    (A * D.Apply ⟨⟨A, B⟩, al⟩ y + B) % 26 = y := by
  have hinv := mul_modInverseIfCoprime (A : Int) (Int.natCast_nonneg A)
    (by simpa [Int.gcd] using hg)
  have h := D_Apply_eq_emod ⟨⟨A, B⟩, al⟩ y
  simp only at h
  have h1 : ((D.Apply ⟨⟨A, B⟩, al⟩ y : Nat) : Int)
      ≡ modInverseIfCoprime (A : Int) 26 * ((y : Int) - (B : Int)) [ZMOD 26] := by
    rw [h]
    exact Int.mod_modEq _ _
  have h2 : (A : Int) * modInverseIfCoprime (A : Int) 26 ≡ 1 [ZMOD 26] := by
    unfold Int.ModEq
    rw [hinv]
    rfl
  have h3 : (A : Int) * ((D.Apply ⟨⟨A, B⟩, al⟩ y : Nat) : Int) + (B : Int)
      ≡ (y : Int) [ZMOD 26] := by
    calc (A : Int) * ((D.Apply ⟨⟨A, B⟩, al⟩ y : Nat) : Int) + (B : Int)
        ≡ (A : Int) * (modInverseIfCoprime (A : Int) 26 * ((y : Int) - (B : Int)))
            + (B : Int) [ZMOD 26] := (h1.mul_left _).add_right _
      _ = ((A : Int) * modInverseIfCoprime (A : Int) 26) * ((y : Int) - (B : Int))
            + (B : Int) := by ring
      _ ≡ 1 * ((y : Int) - (B : Int)) + (B : Int) [ZMOD 26] := (h2.mul_right _).add_right _
      _ = (y : Int) := by ring
  unfold Int.ModEq at h3
  have h4 : (((A * D.Apply ⟨⟨A, B⟩, al⟩ y + B) % 26 : Nat) : Int) = (y : Int) % 26 := by
    push_cast
    exact h3
  omega

theorem E_Apply_eq_wrapped (A B x : Nat) (al : Alphabet) :
    E.Apply ⟨⟨A, B⟩, al⟩ x = (A * x + B) % 256 % 26 := by
  simp only [E.Apply]
  generalize A * x = t
  omega

theorem wrapped_residue_ne (s : Nat) (h1 : 255 < s) (h2 : s ≤ 650) :
    s % 256 % 26 ≠ s % 26 := by
  omega

theorem residue_round_trip_iff (A B x : Nat) (al : Alphabet)
    (hA : A < 26) (hB : B < 26) (hg : Nat.gcd A 26 = 1) (hx : x < 26) :
    D.Apply (E.Inverse ⟨⟨A, B⟩, al⟩) (E.Apply ⟨⟨A, B⟩, al⟩ x) = x ↔ A * x + B ≤ 255 := by
  have hEI : E.Inverse ⟨⟨A, B⟩, al⟩ = ⟨⟨A, B⟩, GetAlphabet⟩ := rfl
  rw [hEI, E_Apply_eq_wrapped]
  constructor
  · intro h
    by_contra hgt
    have hs : A * x + B ≤ 650 := by
      have : A * x ≤ 25 * 25 := Nat.mul_le_mul (by omega) (by omega)
      omega
    have himg := affine_image_of_D_Apply A B ((A * x + B) % 256 % 26) GetAlphabet hg
      (Nat.mod_lt _ (by decide))
    rw [h] at himg
    exact wrapped_residue_ne (A * x + B) (by omega) hs himg.symm
  · intro h
    rw [Nat.mod_eq_of_lt (show A * x + B < 256 by omega)]
    exact D_Apply_affine_image A B x GetAlphabet hg hx

/-- C14 (exact domain of the round trip): for every pair `(A, B)` with `A` and
`B` below `26` and `gcd(A, 26) = 1` and every residue `x < 26`,
`D.Apply(E.Apply(x)) = x` holds exactly when the integer `A * x + B` is at
most `255`; in particular it holds for all `B` and `x` when `A` is one of
`1, 3, 5, 7, 9`. -/
theorem round_trip_exact_domain (A B x : Nat) (al : Alphabet)
    (hA : A < 26) (hB : B < 26) (hg : Nat.gcd A 26 = 1) (hx : x < 26) :
    (D.Apply (E.Inverse ⟨⟨A, B⟩, al⟩) (E.Apply ⟨⟨A, B⟩, al⟩ x) = x ↔ A * x + B ≤ 255)
      ∧ (A ∈ [1, 3, 5, 7, 9] →
          D.Apply (E.Inverse ⟨⟨A, B⟩, al⟩) (E.Apply ⟨⟨A, B⟩, al⟩ x) = x) := by
  have hiff := residue_round_trip_iff A B x al hA hB hg hx
  refine ⟨hiff, ?_⟩
  intro hmem
  apply hiff.mpr
  have hA9 : A ≤ 9 := by
    simp only [List.mem_cons, List.mem_singleton, List.not_mem_nil, or_false] at hmem
    omega
  have : A * x ≤ 9 * 25 := Nat.mul_le_mul hA9 (by omega)
  omega

/-- Witness of C14 at the pair `(9, 25)` and the residue `25`, where
`9 * 25 + 25 = 250`. -/
theorem round_trip_exact_domain_witness :
    9 < 26 ∧ 25 < 26 ∧ Nat.gcd 9 26 = 1
      ∧ (D.Apply (E.Inverse ⟨⟨9, 25⟩, GetAlphabet⟩) (E.Apply ⟨⟨9, 25⟩, GetAlphabet⟩ 25) = 25
          ↔ 9 * 25 + 25 ≤ 255)
      ∧ D.Apply (E.Inverse ⟨⟨9, 25⟩, GetAlphabet⟩) (E.Apply ⟨⟨9, 25⟩, GetAlphabet⟩ 25) = 25 :=
  ⟨by decide, by decide, by decide,
    (round_trip_exact_domain 9 25 25 GetAlphabet (by decide) (by decide) (by decide)
      (by decide)).1,
    (round_trip_exact_domain 9 25 25 GetAlphabet (by decide) (by decide) (by decide)
      (by decide)).2 (by decide)⟩

/-- C15 (encryption is a substitution), evaluated on the code: the pair
`(11, 0)` is accepted by `Set`, yet the residues `22` and `24` are both
encoded to `8`, because the byte product `11 * 24 = 264` wraps to `8`; the
letters `w` and `y` are both encrypted to `i`. -/
theorem encryption_collides_on_byte_wrap :
    (E.Set E.zero ⟨11, 0⟩).2 = none
      ∧ E.Apply (E.Set E.zero ⟨11, 0⟩).1 22 = 8
      ∧ E.Apply (E.Set E.zero ⟨11, 0⟩).1 24 = 8
      ∧ Encrypt "w" (E.Set E.zero ⟨11, 0⟩).1 = some "i"
      ∧ Encrypt "y" (E.Set E.zero ⟨11, 0⟩).1 = some "i" := by
  have hs : E.Set E.zero ⟨11, 0⟩ = (⟨⟨11, 0⟩, GetAlphabet⟩, none) :=
    Set_of_coprime _ _ (by decide)
  rw [hs]
  decide

/-! ## Spaces in `Decrypt` -/

theorem Decrypt_space (d : D) :
    Decrypt " " d
      = (d.alphabet.Chars[D.Apply d
            (toByte (d.alphabet.CanonicalPositionOf (runeToByte ' ')))]?).map
          (fun c => String.mk [c.toLower]) := by
  show (decryptLoop d [' '] "").map ToLower = _
  simp only [decryptLoop]
  cases d.alphabet.Chars[D.Apply d (toByte (d.alphabet.CanonicalPositionOf (runeToByte ' ')))]? with
  | none => rfl
  | some c => rfl

theorem Decrypt_space_ne (d : D) : Decrypt " " d ≠ some "" := by
  rw [Decrypt_space]
  cases d.alphabet.Chars[D.Apply d (toByte (d.alphabet.CanonicalPositionOf (runeToByte ' ')))]? with
  | none => simp
  | some c =>
    simp only [Option.map_some', ne_eq, Option.some.injEq]
    intro h
    have h' := congrArg String.length h
    simp [String.length] at h'

/-- C16 (`Decrypt` ignores case and spaces like `Encrypt`), evaluated on the
code: `Encrypt` gives the same result on `" "` as on the empty message, but
`Decrypt` does not remove spaces: for every `D`, `Decrypt(" ", d)` differs
from `Decrypt` of the upper-cased, space-free input, which is the empty
string; with the key `(5, 8)` and the canonical alphabet it returns `"o"`. -/
theorem decrypt_keeps_spaces (e : E) (d : D) :
    Encrypt " " e = Encrypt (removeSpaces (ToUpper " ")) e
      ∧ removeSpaces (ToUpper " ") = ""
      ∧ Decrypt (removeSpaces (ToUpper " ")) d = some ""
      ∧ Decrypt " " d ≠ Decrypt (removeSpaces (ToUpper " ")) d
      ∧ Decrypt " " ⟨⟨5, 8⟩, GetAlphabet⟩ = some "o" := by
  have hrs : removeSpaces (ToUpper " ") = "" := by decide
  have hde : Decrypt "" d = some "" := rfl
  refine ⟨rfl, hrs, by rw [hrs, hde], ?_, ?_⟩
  · rw [hrs, hde]
    exact Decrypt_space_ne d
  · have hpos : toByte (GetAlphabet.CanonicalPositionOf (runeToByte ' ')) = 0 := by decide
    have hD : D.Apply ⟨⟨5, 8⟩, GetAlphabet⟩ 0 = 14 := by
      simp [D.Apply, modInverseIfCoprime, gcd_of_ne_zero, gcd_zero_left, norm, toByte,
        tmod_eq_ite, tdiv_eq_ite]
    rw [Decrypt_space]
    simp only [hpos, hD]
    decide

/-! ## Termination of the extended Euclidean recursion -/

theorem natAbs_tmod_lt (a b : Int) (h : a ≠ 0) : (Int.tmod b a).natAbs < a.natAbs := by
  have hk : (Int.tmod b a).natAbs = b.natAbs % a.natAbs := by
    cases a <;> cases b <;> simp [Int.tmod, Int.natAbs_neg] <;> rfl
  rw [hk]
  exact Nat.mod_lt _ (Int.natAbs_pos.mpr h)

theorem gcdFuel_eq_gcd (a b : Int) :
    ∀ fuel, a.natAbs < fuel → gcdFuel fuel a b = some (gcd a b) := by
  induction a, b using gcd.induct with
  | case1 b =>
    intro fuel hf
    cases fuel with
    | zero => omega
    | succ n => simp [gcdFuel, gcd_zero_left]
  | case2 a b h ih =>
    intro fuel hf
    cases fuel with
    | zero => omega
    | succ n =>
      have hlt := natAbs_tmod_lt a b h
      rw [gcd_of_ne_zero b h]
      simp only [gcdFuel, h, if_false]
      rw [ih n (by omega)]

/-- C17 (termination of the recursive extended Euclid): for all integers `a`
and `b`, negative ones included, the recursive call replaces `a` by `b % a`
(Go's truncated remainder) of strictly smaller absolute value, the recursion
stops at `a = 0`, and a depth of `|a| + 1` nested calls is enough for
`gcd(a, b, &x, &y)` to return; `modInverseIfCoprime(a, 26)` therefore returns
for every integer `a`. -/
theorem gcd_terminates (a b : Int) :
    (a ≠ 0 → (Int.tmod b a).natAbs < a.natAbs)
      ∧ gcdFuel 1 0 b = some (b, 0, 1)
      ∧ gcdFuel (a.natAbs + 1) a b = some (gcd a b)
      ∧ modInverseIfCoprimeFuel (a.natAbs + 1) a 26 = some (modInverseIfCoprime a 26) := by
  refine ⟨natAbs_tmod_lt a b, by simp [gcdFuel], gcdFuel_eq_gcd a b _ (Nat.lt_succ_self _), ?_⟩
  simp only [modInverseIfCoprimeFuel, gcdFuel_eq_gcd a 26 _ (Nat.lt_succ_self _),
    modInverseIfCoprime]

/-- Witness of C17 at the negative arguments `a = -7`, `b = -26`. -/
theorem gcd_terminates_witness :
    (-7 : Int) ≠ 0
      ∧ (Int.tmod (-26) (-7)).natAbs < (-7 : Int).natAbs
      ∧ gcdFuel ((-7 : Int).natAbs + 1) (-7) (-26) = some (gcd (-7) (-26))
      ∧ modInverseIfCoprimeFuel ((-7 : Int).natAbs + 1) (-7) 26
          = some (modInverseIfCoprime (-7) 26) :=
  ⟨by decide, (gcd_terminates (-7) (-26)).1 (by decide), (gcd_terminates (-7) (-26)).2.2.1,
    (gcd_terminates (-7) (-26)).2.2.2⟩

end Affine
